import Mathlib

/-!
Verification of the command-batch coordinator of
`src/pybind/mgr/restful/module.py`: the `CommandsRequest` class (staged
parallel command execution) and the notification router `Module._notify`.

The Python state is embedded as explicit record-passing Lean functions.
Python object identity of `CommandResult` allocations is made visible
through a ghost `serial` field, and the dispatch order through a ghost
`sent` log; no ghost field influences the result of any operation.
-/

/-- A command descriptor (the JSON-serialisable command dictionaries). -/
abbrev Cmd := String

/-- One in-flight command token (`mgr_module.CommandResult` as used by the
module).  `r` is the exit code, `none` while pending ("absent while
pending"); the dispatcher writes it exactly once at completion.  Ghost
fields: `serial` models Python object identity (each `CommandResult(tag)`
allocation is a fresh object), `stage` records which dispatch wave created
the token (the dispatcher-stub instrumentation suggested by the spec). -/
structure CommandResult where
  tag : String
  command : Cmd
  r : Option Int
  serial : Nat
  stage : Nat
  deriving DecidableEq

/-- Little-endian decimal digits of `n`, with an explicit fuel bound so
that the recursion is structural (`fuel ≥ n` gives the true digits). -/
def decDigits : Nat → Nat → List Nat
  | 0, _ => []
  | fuel + 1, n => if n = 0 then [] else n % 10 :: decDigits fuel (n / 10)

/-- Decimal numeral of a natural number: the model of the Python `%d`
format specifier. -/
def decRepr (n : Nat) : String :=
  if n = 0 then ("0") else (((decDigits n n).reverse).map Nat.digitChar).asString

/-- The tag of command number `index` of one dispatch batch:
`%s:%d % (str(self.id), index)`. -/
def tagOf (id : String) (index : Nat) : String :=
  id ++ (":") ++ decRepr index

/-- The mutable state of one `CommandsRequest` coordinator.  `sent` is a
ghost log of the `instance.send_command` calls issued so far (tag and
command, in dispatch order); `counter` is the next fresh object serial;
`stagesDone` counts dispatched stages.  Ghost fields influence nothing. -/
structure CommandsRequest where
  id : String
  running : List CommandResult
  waiting : List (List Cmd)
  finished : List CommandResult
  failed : List CommandResult
  sent : List (String × Cmd)
  counter : Nat
  stagesDone : Nat
  deriving DecidableEq

/-- Method `CommandsRequest.run`: build one `CommandResult` per command of the
batch, tagged `%s:%d % (id, index)` for `index in range(len(commands))`,
sending each command to the dispatcher.  `serial0` is the first fresh
object serial, `stage` the ghost stage index. -/
def runCmds (id : String) (serial0 stage : Nat) (commands : List Cmd) : List CommandResult :=
  commands.enum.map fun p =>
    { tag := tagOf id p.1
      command := p.2
      r := none
      serial := serial0 + p.1
      stage := stage }

/-- Constructor `CommandsRequest.__init__`: filter out the empty sub-requests, store
the tail of the filtered plan as `waiting`, and if anything remains run
the first stage, extending `running` with its results. -/
def CommandsRequest.init (id : String) (commands_arrays : List (List Cmd)) : CommandsRequest :=
  match commands_arrays.filter (fun x => x.length != 0) with
  | [] =>
      { id := id, running := [], waiting := [], finished := [], failed := [],
        sent := [], counter := 0, stagesDone := 0 }
  | first :: rest =>
      let results := runCmds id 0 0 first
      { id := id, running := results, waiting := rest, finished := [], failed := [],
        sent := results.map (fun r => (r.tag, r.command)),
        counter := first.length, stagesDone := 1 }

/-- Method `CommandsRequest.next`: if `waiting` is empty there is nothing to run;
otherwise pop the next stage and extend `running` with its results.
(The code checks only `self.waiting`; `self.running` is not consulted.) -/
def CommandsRequest.next (s : CommandsRequest) : CommandsRequest :=
  match s.waiting with
  | [] => s
  | commands :: rest =>
      let results := runCmds s.id s.counter s.stagesDone commands
      { s with waiting := rest,
               running := s.running ++ results,
               sent := s.sent ++ results.map (fun r => (r.tag, r.command)),
               counter := s.counter + commands.length,
               stagesDone := s.stagesDone + 1 }

/-- The first entry of `l` carrying `tag`, with the list around it: the
Python loop `for index in range(len(self.running))` with `pop(index)` at
the first match. -/
def removeFirstTag (tag : String) : List CommandResult → Option (CommandResult × List CommandResult)
  | [] => none
  | x :: xs =>
      if x.tag = tag then some (x, xs)
      else
        match removeFirstTag tag xs with
        | none => none
        | some (y, ys) => some (y, x :: ys)

/-- Method `CommandsRequest.finish`: pop the first running entry with this tag,
file it into `finished` if its exit code is `0` and into `failed`
otherwise, and return `True`; return `False` when no such tag is found. -/
def CommandsRequest.finish (s : CommandsRequest) (tag : String) : Bool × CommandsRequest :=
  match removeFirstTag tag s.running with
  | none => (false, s)
  | some (res, rest) =>
      if res.r = some 0 then
        (true, { s with running := rest, finished := s.finished ++ [res] })
      else
        (true, { s with running := rest, failed := s.failed ++ [res] })

/-- Method `CommandsRequest.is_running(tag)`: some running entry carries `tag`. -/
def CommandsRequest.is_running (s : CommandsRequest) (tag : String) : Bool :=
  s.running.any fun result => result.tag = tag

/-- Method `CommandsRequest.is_ready`: `not self.running and self.waiting`. -/
def CommandsRequest.is_ready (s : CommandsRequest) : Bool :=
  s.running.isEmpty && !s.waiting.isEmpty

/-- Method `CommandsRequest.is_waiting`: `bool(self.waiting)`. -/
def CommandsRequest.is_waiting (s : CommandsRequest) : Bool :=
  !s.waiting.isEmpty

/-- Method `CommandsRequest.is_finished`: `not self.running and not self.waiting`. -/
def CommandsRequest.is_finished (s : CommandsRequest) : Bool :=
  s.running.isEmpty && s.waiting.isEmpty

/-- Method `CommandsRequest.has_failed`: `bool(self.failed)`. -/
def CommandsRequest.has_failed (s : CommandsRequest) : Bool :=
  !s.failed.isEmpty

/-- Method `CommandsRequest.get_state`: `pending` until finished, then `failed`
if anything failed, else `success`. -/
def CommandsRequest.get_state (s : CommandsRequest) : String :=
  if !s.is_finished then ("pending")
  else if s.has_failed then ("failed")
  else ("success")

/-- The external dispatcher completing the command tagged `tag`: write
exit code `code` into the first matching running entry ("mutated exactly
once, by the dispatcher, when the command completes"). -/
def setR (tag : String) (code : Int) : List CommandResult → List CommandResult
  | [] => []
  | x :: xs => if x.tag = tag then { x with r := some code } :: xs else x :: setR tag code xs

/-- Lift `setR` to the coordinator state. -/
def setResult (s : CommandsRequest) (tag : String) (code : Int) : CommandsRequest :=
  { s with running := setR tag code s.running }

/-- The per-coordinator tail of `Module._notify` once the coordinator
running `tag` has been found: `request.finish(tag)`, then
`request.next()` iff `request.is_ready()`. -/
def notifyOne (s : CommandsRequest) (tag : String) : CommandsRequest :=
  if ((s.finish tag).2).is_ready then ((s.finish tag).2).next else (s.finish tag).2

/-- One completion event seen by a single coordinator: the dispatcher
resolves the running command tagged `tag` with exit code `code`, then the
command notification is delivered. -/
def notifyEvent (s : CommandsRequest) (tag : String) (code : Int) : CommandsRequest :=
  notifyOne (setResult s tag code) tag

/-- Notification-driven step of one coordinator: some currently running
command completes, with an arbitrary exit code. -/
inductive Step : CommandsRequest → CommandsRequest → Prop
  | complete (s : CommandsRequest) (tag : String) (code : Int) :
      s.is_running tag = true → Step s (notifyEvent s tag code)

/-- The coordinator states reachable from a freshly constructed
coordinator by completion notifications. -/
inductive Reachable : CommandsRequest → Prop
  | init (id : String) (plan : List (List Cmd)) : Reachable (CommandsRequest.init id plan)
  | step {s t : CommandsRequest} : Reachable s → Step s t → Reachable t

/-- Registry of the router: `Module.requests`. -/
structure ModuleState where
  requests : List CommandsRequest
  deriving DecidableEq

/-- Router method `Module._notify` for `notify_type == "command"`: skip the `seq`
sentinel; filter the registry for coordinators running `tag`; warn and
return unless exactly one matches; otherwise deliver `finish(tag)` to it
and call `next()` on it iff it `is_ready()`. -/
def notifyCommand (M : ModuleState) (tag : String) : ModuleState :=
  if tag = ("seq") then M
  else if (M.requests.filter fun r => r.is_running tag).length != 1 then M
  else { requests := M.requests.map fun r => if r.is_running tag then notifyOne r tag else r }

/-- The operations a caller or the notification path can apply to one
coordinator after construction. -/
inductive Op
  | doFinish (tag : String)
  | doNext
  | doComplete (tag : String) (code : Int)

/-- Apply one operation. -/
def applyOp (s : CommandsRequest) (op : Op) : CommandsRequest :=
  match op with
  | .doFinish tag => (s.finish tag).2
  | .doNext => s.next
  | .doComplete tag code => notifyEvent s tag code

/-- Apply a sequence of operations, left to right. -/
def applyOps (s : CommandsRequest) (ops : List Op) : CommandsRequest :=
  ops.foldl applyOp s

/-! ### Tags: the decimal part of `%s:%d` is injective -/

/-- The function `Nat.digitChar` is injective below the base `10`. -/
theorem digitChar_injOn : ∀ a < 10, ∀ b < 10, Nat.digitChar a = Nat.digitChar b → a = b := by
  decide

/-- Mapping `Nat.digitChar` over lists of decimal digits is injective. -/
theorem map_digitChar_inj : ∀ {l1 l2 : List Nat}, (∀ d ∈ l1, d < 10) → (∀ d ∈ l2, d < 10) →
    l1.map Nat.digitChar = l2.map Nat.digitChar → l1 = l2 := by
  intro l1
  induction l1 with
  | nil => intro l2 _ _ h; cases l2 <;> simp_all
  | cons a t ih =>
      intro l2 h1 h2 h
      cases l2 with
      | nil => simp_all
      | cons b t2 =>
          simp only [List.map_cons, List.cons.injEq] at h
          have hab : a = b :=
            digitChar_injOn a (h1 a (List.mem_cons_self a t)) b (h2 b (List.mem_cons_self b t2)) h.1
          have ht : t = t2 :=
            ih (fun d hd => h1 d (List.mem_cons_of_mem a hd))
              (fun d hd => h2 d (List.mem_cons_of_mem b hd)) h.2
          rw [hab, ht]

/-- With enough fuel, `decDigits` computes `Nat.digits 10`. -/
theorem decDigits_eq : ∀ (fuel n : Nat), n ≤ fuel → decDigits fuel n = Nat.digits 10 n := by
  intro fuel
  induction fuel with
  | zero =>
      intro n hn
      have h0 : n = 0 := Nat.le_zero.mp hn
      rw [h0]
      simp [decDigits]
  | succ f ih =>
      intro n hn
      by_cases h : n = 0
      · rw [h]; simp [decDigits]
      · rw [decDigits, if_neg h,
          Nat.digits_def' (by norm_num : 1 < 10) (Nat.pos_of_ne_zero h)]
        have hdiv : n / 10 < n := Nat.div_lt_self (Nat.pos_of_ne_zero h) (by norm_num)
        rw [ih (n / 10) (by omega)]

/-- Equation: `decRepr` rewritten through `Nat.digits`. -/
theorem decRepr_eq_digits (n : Nat) :
    decRepr n = if n = 0 then ("0")
      else (((Nat.digits 10 n).reverse).map Nat.digitChar).asString := by
  unfold decRepr
  rw [decDigits_eq n n (Nat.le_refl n)]

/-- A positive number has a decimal numeral that is not the numeral `0`. -/
theorem decRepr_ne_zero {n : Nat} (hn : n ≠ 0) : decRepr n ≠ ("0") := by
  intro h
  rw [decRepr_eq_digits] at h
  rw [if_neg hn] at h
  have hl : ((Nat.digits 10 n).reverse).map Nat.digitChar = ("0").toList :=
    List.asString_eq.mp h
  have hl0 : ((Nat.digits 10 n).reverse).map Nat.digitChar = [Nat.digitChar 0] := by
    rw [hl]; decide
  have hrev : (Nat.digits 10 n).reverse = [0] :=
    map_digitChar_inj
      (fun d hd => Nat.digits_lt_base (by norm_num) (List.mem_reverse.mp hd))
      (by intro d hd; simp at hd; omega) hl0
  have hdig : Nat.digits 10 n = [0] := by
    have h2 := congrArg List.reverse hrev
    simpa using h2
  have h3 := Nat.ofDigits_digits 10 n
  rw [hdig] at h3
  simp [Nat.ofDigits_singleton] at h3
  exact hn h3.symm

/-- The decimal numeral function is injective (distinct indices give
distinct `%d` renderings). -/
theorem decRepr_injective : Function.Injective decRepr := by
  intro m n h
  by_cases hm : m = 0 <;> by_cases hn : n = 0
  · rw [hm, hn]
  · subst hm
    have h0 : decRepr 0 = ("0") := by simp [decRepr]
    rw [h0] at h
    exact absurd h.symm (decRepr_ne_zero hn)
  · subst hn
    have h0 : decRepr 0 = ("0") := by simp [decRepr]
    rw [h0] at h
    exact absurd h (decRepr_ne_zero hm)
  · rw [decRepr_eq_digits, decRepr_eq_digits] at h
    rw [if_neg hm, if_neg hn] at h
    have hl := List.asString_inj.mp h
    have hrev := map_digitChar_inj
      (fun d hd => Nat.digits_lt_base (by norm_num) (List.mem_reverse.mp hd))
      (fun d hd => Nat.digits_lt_base (by norm_num) (List.mem_reverse.mp hd)) hl
    have hdig : Nat.digits 10 m = Nat.digits 10 n := by
      have h2 := congrArg List.reverse hrev
      simpa using h2
    have h1 := Nat.ofDigits_digits 10 m
    rw [hdig, Nat.ofDigits_digits] at h1
    exact h1.symm

/-- Two tags of one dispatch batch agree only at equal indices. -/
theorem tagOf_inj (id : String) {i j : Nat} (h : tagOf id i = tagOf id j) : i = j := by
  unfold tagOf at h
  have hdata := congrArg String.data h
  simp only [String.data_append] at hdata
  have h2 : (decRepr i).data = (decRepr j).data :=
    List.append_cancel_left hdata
  exact decRepr_injective (String.ext h2)

/-! ### Structure of one dispatch batch -/

/-- The tags of a dispatch batch, in order. -/
theorem runCmds_map_tag (id : String) (serial0 stage : Nat) (commands : List Cmd) :
    (runCmds id serial0 stage commands).map (fun r => r.tag)
      = (List.range commands.length).map (tagOf id) := by
  unfold runCmds
  rw [List.map_map]
  have hc : ((fun r => CommandResult.tag r) ∘ fun p : Nat × Cmd =>
      ({ tag := tagOf id p.1, command := p.2, r := none, serial := serial0 + p.1,
         stage := stage } : CommandResult)) = (tagOf id) ∘ Prod.fst := rfl
  rw [hc, ← List.map_map, List.enum_map_fst]

/-- Each batch entry stores its own command, in order. -/
theorem runCmds_map_command (id : String) (serial0 stage : Nat) (commands : List Cmd) :
    (runCmds id serial0 stage commands).map (fun r => r.command) = commands := by
  unfold runCmds
  rw [List.map_map]
  have hc : ((fun r => CommandResult.command r) ∘ fun p : Nat × Cmd =>
      ({ tag := tagOf id p.1, command := p.2, r := none, serial := serial0 + p.1,
         stage := stage } : CommandResult)) = Prod.snd := rfl
  rw [hc, List.enum_map_snd]

/-- The ghost serials of a dispatch batch, in order. -/
theorem runCmds_map_serial (id : String) (serial0 stage : Nat) (commands : List Cmd) :
    (runCmds id serial0 stage commands).map (fun r => r.serial)
      = (List.range commands.length).map (serial0 + ·) := by
  unfold runCmds
  rw [List.map_map]
  have hc : ((fun r => CommandResult.serial r) ∘ fun p : Nat × Cmd =>
      ({ tag := tagOf id p.1, command := p.2, r := none, serial := serial0 + p.1,
         stage := stage } : CommandResult)) = (serial0 + ·) ∘ Prod.fst := rfl
  rw [hc, ← List.map_map, List.enum_map_fst]

/-- Every batch entry is pending and carries the stage index of the batch. -/
theorem runCmds_mem (id : String) (serial0 stage : Nat) (commands : List Cmd) :
    ∀ r ∈ runCmds id serial0 stage commands,
      r.stage = stage ∧ r.r = none ∧ serial0 ≤ r.serial := by
  intro r hr
  unfold runCmds at hr
  obtain ⟨p, _, rfl⟩ := List.mem_map.mp hr
  exact ⟨rfl, rfl, Nat.le_add_right _ _⟩

/-- Upper bound on the ghost serials of a batch. -/
theorem runCmds_serial_lt (id : String) (serial0 stage : Nat) (commands : List Cmd) :
    ∀ r ∈ runCmds id serial0 stage commands, r.serial < serial0 + commands.length := by
  intro r hr
  have hm : r.serial ∈ (runCmds id serial0 stage commands).map (fun r => r.serial) :=
    List.mem_map_of_mem _ hr
  rw [runCmds_map_serial] at hm
  obtain ⟨i, hi, hser⟩ := List.mem_map.mp hm
  have hlt : i < commands.length := List.mem_range.mp hi
  omega

/-- The tags of one dispatch batch are pairwise distinct. -/
theorem runCmds_tags_nodup (id : String) (serial0 stage : Nat) (commands : List Cmd) :
    ((runCmds id serial0 stage commands).map (fun r => r.tag)).Nodup := by
  rw [runCmds_map_tag]
  refine List.Nodup.map_on ?_ (List.nodup_range _)
  intro x _ y _ hxy
  exact tagOf_inj id hxy

/-- The ghost serials of one dispatch batch are pairwise distinct. -/
theorem runCmds_serials_nodup (id : String) (serial0 stage : Nat) (commands : List Cmd) :
    ((runCmds id serial0 stage commands).map (fun r => r.serial)).Nodup := by
  rw [runCmds_map_serial]
  refine List.Nodup.map_on ?_ (List.nodup_range _)
  intro x _ y _ hxy
  omega

/-! ### Structure of the first-match removal inside `finish` -/

/-- If the scan finds a match, the list splits around the first match. -/
theorem removeFirstTag_some {tag : String} : ∀ {l : List CommandResult} {res rest},
    removeFirstTag tag l = some (res, rest) →
    ∃ l1 l2, l = l1 ++ res :: l2 ∧ rest = l1 ++ l2 ∧ res.tag = tag ∧ ∀ x ∈ l1, x.tag ≠ tag := by
  intro l
  induction l with
  | nil => intro res rest h; simp [removeFirstTag] at h
  | cons x xs ih =>
      intro res rest h
      simp only [removeFirstTag] at h
      by_cases hx : x.tag = tag
      · rw [if_pos hx] at h
        simp only [Option.some.injEq, Prod.mk.injEq] at h
        obtain ⟨rfl, rfl⟩ := h
        exact ⟨[], xs, rfl, rfl, hx, by simp⟩
      · rw [if_neg hx] at h
        cases hrec : removeFirstTag tag xs with
        | none => rw [hrec] at h; cases h
        | some p =>
            obtain ⟨y, ys⟩ := p
            rw [hrec] at h
            simp only [Option.some.injEq, Prod.mk.injEq] at h
            obtain ⟨rfl, rfl⟩ := h
            obtain ⟨l1, l2, rfl, rfl, hy, hl1⟩ := ih hrec
            refine ⟨x :: l1, l2, rfl, rfl, hy, ?_⟩
            intro z hz
            rcases List.mem_cons.mp hz with rfl | hz2
            · exact hx
            · exact hl1 z hz2

/-- The scan fails exactly when no entry carries the tag. -/
theorem removeFirstTag_none {tag : String} : ∀ {l : List CommandResult},
    removeFirstTag tag l = none ↔ ∀ x ∈ l, x.tag ≠ tag := by
  intro l
  induction l with
  | nil => simp [removeFirstTag]
  | cons x xs ih =>
      simp only [removeFirstTag]
      by_cases hx : x.tag = tag
      · rw [if_pos hx]
        constructor
        · intro h; cases h
        · intro hall; exact absurd hx (hall x (List.mem_cons_self x xs))
      · rw [if_neg hx]
        cases hrec : removeFirstTag tag xs with
        | none =>
            simp only [hrec]
            constructor
            · intro _ y hy
              rcases List.mem_cons.mp hy with rfl | hy2
              · exact hx
              · exact ih.mp hrec y hy2
            · intro _; trivial
        | some p =>
            obtain ⟨y, ys⟩ := p
            simp only [hrec]
            constructor
            · intro h; cases h
            · intro hall
              exfalso
              obtain ⟨l1, l2, hl, _, hy, _⟩ := removeFirstTag_some hrec
              refine absurd hy (hall y ?_)
              rw [hl]
              exact List.mem_cons_of_mem x (List.mem_append.mpr (Or.inr (List.mem_cons_self y l2)))

/-- Characterisation of `is_running` in terms of membership. -/
theorem is_running_iff {s : CommandsRequest} {tag : String} :
    s.is_running tag = true ↔ ∃ r ∈ s.running, r.tag = tag := by
  simp [CommandsRequest.is_running]

/-- The scan fails exactly when `is_running` is false. -/
theorem removeFirstTag_none_iff {s : CommandsRequest} {tag : String} :
    removeFirstTag tag s.running = none ↔ s.is_running tag = false := by
  rw [removeFirstTag_none]
  constructor
  · intro h
    cases hb : s.is_running tag with
    | false => rfl
    | true =>
        obtain ⟨r, hr, hrt⟩ := is_running_iff.mp hb
        exact absurd hrt (h r hr)
  · intro h x hx hxt
    have : s.is_running tag = true := is_running_iff.mpr ⟨x, hx, hxt⟩
    rw [h] at this
    cases this

/-! ### The dispatcher write `setR` changes only the `r` field -/

/-- The write `setR` preserves the tags. -/
theorem setR_map_tag (tag : String) (code : Int) : ∀ l : List CommandResult,
    (setR tag code l).map (fun r => r.tag) = l.map (fun r => r.tag) := by
  intro l
  induction l with
  | nil => rfl
  | cons x xs ih =>
      by_cases hx : x.tag = tag
      · simp [setR, hx]
      · simp [setR, hx, ih]

/-- The write `setR` preserves the ghost serials. -/
theorem setR_map_serial (tag : String) (code : Int) : ∀ l : List CommandResult,
    (setR tag code l).map (fun r => r.serial) = l.map (fun r => r.serial) := by
  intro l
  induction l with
  | nil => rfl
  | cons x xs ih =>
      by_cases hx : x.tag = tag
      · simp [setR, hx]
      · simp [setR, hx, ih]

/-- Every entry after a `setR` write corresponds to an original entry with
the same tag, serial and stage. -/
theorem setR_mem (tag : String) (code : Int) : ∀ l : List CommandResult,
    ∀ x ∈ setR tag code l, ∃ y ∈ l, y.serial = x.serial ∧ y.stage = x.stage ∧ y.tag = x.tag := by
  intro l
  induction l with
  | nil => intro x hx; cases hx
  | cons a xs ih =>
      intro x hx
      by_cases ha : a.tag = tag
      · rw [setR, if_pos ha] at hx
        rcases List.mem_cons.mp hx with rfl | hx2
        · exact ⟨a, List.mem_cons_self a xs, rfl, rfl, rfl⟩
        · exact ⟨x, List.mem_cons_of_mem a hx2, rfl, rfl, rfl⟩
      · rw [setR, if_neg ha] at hx
        rcases List.mem_cons.mp hx with rfl | hx2
        · exact ⟨x, List.mem_cons_self x xs, rfl, rfl, rfl⟩
        · obtain ⟨y, hy, h1, h2, h3⟩ := ih x hx2
          exact ⟨y, List.mem_cons_of_mem a hy, h1, h2, h3⟩

/-! ### The reachability invariant -/

/-- Invariant of reachable coordinator states: running tags are pairwise
distinct; object serials are pairwise distinct within `running` and within
`finished ++ failed` and across the two; all serials are below the
allocation counter; and every running entry belongs to the most recently
dispatched stage. -/
def CoordInv (s : CommandsRequest) : Prop :=
  ((s.running.map fun r => r.tag).Nodup) ∧
  ((s.running.map fun r => r.serial).Nodup) ∧
  (((s.finished ++ s.failed).map fun r => r.serial).Nodup) ∧
  (∀ r ∈ s.running, ∀ q ∈ s.finished ++ s.failed, r.serial ≠ q.serial) ∧
  (∀ r ∈ s.running, r.serial < s.counter) ∧
  (∀ q ∈ s.finished ++ s.failed, q.serial < s.counter) ∧
  (∀ r ∈ s.running, r.stage + 1 = s.stagesDone)

/-- A freshly constructed coordinator satisfies the invariant. -/
theorem inv_init (id : String) (plan : List (List Cmd)) : CoordInv (CommandsRequest.init id plan) := by
  unfold CommandsRequest.init
  split
  · exact ⟨by simp, by simp, by simp, by simp, by simp, by simp, by simp⟩
  · next first rest heq =>
      refine ⟨runCmds_tags_nodup id 0 0 first, runCmds_serials_nodup id 0 0 first,
        by simp, by simp, ?_, by simp, ?_⟩
      · intro r hr
        have := runCmds_serial_lt id 0 0 first r hr
        simpa using this
      · intro r hr
        have := (runCmds_mem id 0 0 first r hr).1
        simp [this]

/-- Operation `finish` preserves the invariant. -/
theorem inv_finish {s : CommandsRequest} (h : CoordInv s) (tag : String) : CoordInv (s.finish tag).2 := by
  obtain ⟨h1, h2, h3, h4, h5, h6, h7⟩ := h
  unfold CommandsRequest.finish
  cases hrem : removeFirstTag tag s.running with
  | none => exact ⟨h1, h2, h3, h4, h5, h6, h7⟩
  | some p =>
      obtain ⟨res, rest⟩ := p
      obtain ⟨l1, l2, hl, hrest, htag, _⟩ := removeFirstTag_some hrem
      have hperm : s.running.Perm (res :: rest) := by
        rw [hl, hrest]; exact List.perm_middle
      have hsub : rest.Sublist s.running := by
        rw [hl, hrest]; exact (List.sublist_cons_self res l2).append_left l1
      have hresmem : res ∈ s.running := by
        rw [hl]; exact List.mem_append.mpr (Or.inr (List.mem_cons_self res l2))
      have hrestmem : ∀ x ∈ rest, x ∈ s.running := fun x hx => hsub.subset hx
      have hresrest : ∀ x ∈ rest, x.serial ≠ res.serial := by
        have hmapperm : (s.running.map fun r => r.serial).Perm
            (res.serial :: rest.map fun r => r.serial) := hperm.map _
        have hnd := hmapperm.nodup_iff.mp h2
        intro x hx hser
        exact (List.nodup_cons.mp hnd).1 (hser ▸ List.mem_map_of_mem _ hx)
      have hrestnd_tag : (rest.map fun r => r.tag).Nodup :=
        h1.sublist (hsub.map _)
      have hrestnd_ser : (rest.map fun r => r.serial).Nodup :=
        h2.sublist (hsub.map _)
      dsimp only
      by_cases hres0 : res.r = some 0
      · rw [if_pos hres0]
        refine ⟨hrestnd_tag, hrestnd_ser, ?_, ?_, ?_, ?_, ?_⟩
        · have hp : ((s.finished ++ [res]) ++ s.failed).Perm (res :: (s.finished ++ s.failed)) := by
            rw [List.append_assoc, List.singleton_append]
            exact List.perm_middle
          rw [(hp.map _).nodup_iff]
          rw [List.map_cons, List.nodup_cons]
          constructor
          · intro hmem
            obtain ⟨q, hq, hqser⟩ := List.mem_map.mp hmem
            exact h4 res hresmem q hq hqser.symm
          · exact h3
        · intro r hr q hq
          rcases List.mem_append.mp hq with hq2 | hq3
          · rcases List.mem_append.mp hq2 with hq4 | hq5
            · exact h4 r (hrestmem r hr) q (List.mem_append.mpr (Or.inl hq4))
            · have : q = res := by simpa using hq5
              subst this
              exact hresrest r hr
          · exact h4 r (hrestmem r hr) q (List.mem_append.mpr (Or.inr hq3))
        · exact fun r hr => h5 r (hrestmem r hr)
        · intro q hq
          rcases List.mem_append.mp hq with hq2 | hq3
          · rcases List.mem_append.mp hq2 with hq4 | hq5
            · exact h6 q (List.mem_append.mpr (Or.inl hq4))
            · have : q = res := by simpa using hq5
              subst this
              exact h5 q hresmem
          · exact h6 q (List.mem_append.mpr (Or.inr hq3))
        · exact fun r hr => h7 r (hrestmem r hr)
      · rw [if_neg hres0]
        refine ⟨hrestnd_tag, hrestnd_ser, ?_, ?_, ?_, ?_, ?_⟩
        · have hp : (s.finished ++ (s.failed ++ [res])).Perm (res :: (s.finished ++ s.failed)) := by
            rw [← List.append_assoc]
            exact List.perm_append_singleton res (s.finished ++ s.failed)
          rw [(hp.map _).nodup_iff]
          rw [List.map_cons, List.nodup_cons]
          constructor
          · intro hmem
            obtain ⟨q, hq, hqser⟩ := List.mem_map.mp hmem
            exact h4 res hresmem q hq hqser.symm
          · exact h3
        · intro r hr q hq
          rcases List.mem_append.mp hq with hq2 | hq3
          · exact h4 r (hrestmem r hr) q (List.mem_append.mpr (Or.inl hq2))
          · rcases List.mem_append.mp hq3 with hq4 | hq5
            · exact h4 r (hrestmem r hr) q (List.mem_append.mpr (Or.inr hq4))
            · have : q = res := by simpa using hq5
              subst this
              exact hresrest r hr
        · exact fun r hr => h5 r (hrestmem r hr)
        · intro q hq
          rcases List.mem_append.mp hq with hq2 | hq3
          · exact h6 q (List.mem_append.mpr (Or.inl hq2))
          · rcases List.mem_append.mp hq3 with hq4 | hq5
            · exact h6 q (List.mem_append.mpr (Or.inr hq4))
            · have : q = res := by simpa using hq5
              subst this
              exact h5 q hresmem
        · exact fun r hr => h7 r (hrestmem r hr)

/-! ### Equations for `next` and `finish` -/

/-- Operation `next` with an empty `waiting` list is the identity. -/
theorem next_eq_nil {s : CommandsRequest} (hw : s.waiting = []) : s.next = s := by
  unfold CommandsRequest.next
  split
  · rfl
  · next c r heq => rw [hw] at heq; cases heq

/-- Operation `next` with a non-empty `waiting` list dispatches the head stage. -/
theorem next_eq_cons {s : CommandsRequest} {commands : List Cmd} {rest : List (List Cmd)}
    (hw : s.waiting = commands :: rest) :
    s.next = { s with
               waiting := rest
               running := s.running ++ runCmds s.id s.counter s.stagesDone commands
               sent := s.sent ++
                 (runCmds s.id s.counter s.stagesDone commands).map (fun r => (r.tag, r.command))
               counter := s.counter + commands.length
               stagesDone := s.stagesDone + 1 } := by
  unfold CommandsRequest.next
  split
  · next heq => rw [hw] at heq; cases heq
  · next c r heq =>
      rw [hw] at heq
      injection heq with hc hr
      subst hc
      subst hr
      rfl

/-- Operation `finish` on a tag that is not running returns `False` and changes
nothing. -/
theorem finish_not_found {s : CommandsRequest} {tag : String}
    (h : s.is_running tag = false) : s.finish tag = (false, s) := by
  unfold CommandsRequest.finish
  rw [removeFirstTag_none_iff.mpr h]

/-- Operation `finish` on a found tag moves the first matching entry. -/
theorem finish_found {s : CommandsRequest} {tag : String} {res : CommandResult}
    {rest : List CommandResult} (h : removeFirstTag tag s.running = some (res, rest)) :
    s.finish tag = (true,
      if res.r = some 0 then { s with running := rest, finished := s.finished ++ [res] }
      else { s with running := rest, failed := s.failed ++ [res] }) := by
  unfold CommandsRequest.finish
  rw [h]
  dsimp only
  by_cases hc : res.r = some 0
  · rw [if_pos hc, if_pos hc]
  · rw [if_neg hc, if_neg hc]

/-! ### Invariant preservation -/

/-- The dispatcher write preserves the invariant. -/
theorem inv_setResult {s : CommandsRequest} (h : CoordInv s) (tag : String) (code : Int) :
    CoordInv (setResult s tag code) := by
  obtain ⟨h1, h2, h3, h4, h5, h6, h7⟩ := h
  refine ⟨?_, ?_, h3, ?_, ?_, h6, ?_⟩
  · show ((setR tag code s.running).map fun r => r.tag).Nodup
    rw [setR_map_tag]
    exact h1
  · show ((setR tag code s.running).map fun r => r.serial).Nodup
    rw [setR_map_serial]
    exact h2
  · intro r hr q hq
    obtain ⟨y, hy, hser, _, _⟩ := setR_mem tag code s.running r hr
    rw [← hser]
    exact h4 y hy q hq
  · intro r hr
    obtain ⟨y, hy, hser, _, _⟩ := setR_mem tag code s.running r hr
    rw [← hser]
    exact h5 y hy
  · intro r hr
    obtain ⟨y, hy, _, hstage, _⟩ := setR_mem tag code s.running r hr
    rw [← hstage]
    exact h7 y hy

/-- Dispatching the next stage preserves the invariant when `running` is
empty (which is how the notification path invokes it). -/
theorem inv_next_of_empty {s : CommandsRequest} (h : CoordInv s) (hr : s.running = []) :
    CoordInv s.next := by
  obtain ⟨h1, h2, h3, h4, h5, h6, h7⟩ := h
  cases hw : s.waiting with
  | nil => rw [next_eq_nil hw]; exact ⟨h1, h2, h3, h4, h5, h6, h7⟩
  | cons commands rest =>
      rw [next_eq_cons hw]
      unfold CoordInv
      dsimp only
      rw [hr]
      simp only [List.nil_append]
      refine ⟨runCmds_tags_nodup s.id s.counter s.stagesDone commands,
        runCmds_serials_nodup s.id s.counter s.stagesDone commands, h3, ?_, ?_, ?_, ?_⟩
      · intro r hrm q hq
        have hge := (runCmds_mem s.id s.counter s.stagesDone commands r hrm).2.2
        have hlt := h6 q hq
        omega
      · exact runCmds_serial_lt s.id s.counter s.stagesDone commands
      · intro q hq
        have := h6 q hq
        omega
      · intro r hrm
        have := (runCmds_mem s.id s.counter s.stagesDone commands r hrm).1
        rw [this]

/-- One notification-driven step preserves the invariant. -/
theorem inv_step {s t : CommandsRequest} (h : CoordInv s) (hst : Step s t) : CoordInv t := by
  cases hst with
  | complete tag code hrun =>
      have h1 : CoordInv ((setResult s tag code).finish tag).2 :=
        inv_finish (inv_setResult h tag code) tag
      unfold notifyEvent notifyOne
      by_cases hready : (((setResult s tag code).finish tag).2).is_ready = true
      · rw [if_pos hready]
        refine inv_next_of_empty h1 ?_
        simp only [CommandsRequest.is_ready, Bool.and_eq_true, List.isEmpty_iff] at hready
        exact hready.1
      · rw [if_neg hready]
        exact h1

/-- Every reachable coordinator state satisfies the invariant. -/
theorem reachable_inv {s : CommandsRequest} (h : Reachable s) : CoordInv s := by
  induction h with
  | init id plan => exact inv_init id plan
  | step _ hst ih => exact inv_step ih hst

/-! ### `finished`/`failed` only grow -/

/-- Operation `finish` never removes an entry from `finished ++ failed`. -/
theorem finish_fin_mono {s : CommandsRequest} (tag : String) :
    ∀ x ∈ s.finished ++ s.failed,
      x ∈ ((s.finish tag).2).finished ++ ((s.finish tag).2).failed := by
  intro x hx
  cases hrem : removeFirstTag tag s.running with
  | none =>
      rw [finish_not_found (removeFirstTag_none_iff.mp hrem)]
      exact hx
  | some p =>
      obtain ⟨res, rest⟩ := p
      rw [finish_found hrem]
      by_cases hc : res.r = some 0
      · rw [if_pos hc]
        rcases List.mem_append.mp hx with h1 | h2
        · exact List.mem_append.mpr (Or.inl (List.mem_append.mpr (Or.inl h1)))
        · exact List.mem_append.mpr (Or.inr h2)
      · rw [if_neg hc]
        rcases List.mem_append.mp hx with h1 | h2
        · exact List.mem_append.mpr (Or.inl h1)
        · exact List.mem_append.mpr (Or.inr (List.mem_append.mpr (Or.inl h2)))

/-- Operation `next` leaves `finished` and `failed` untouched. -/
theorem next_fin_eq (s : CommandsRequest) :
    (s.next).finished = s.finished ∧ (s.next).failed = s.failed := by
  cases hw : s.waiting with
  | nil => rw [next_eq_nil hw]; exact ⟨rfl, rfl⟩
  | cons c r => rw [next_eq_cons hw]; exact ⟨rfl, rfl⟩

/-- One notification-driven step never removes an entry from
`finished ++ failed`. -/
theorem step_fin_mono {s t : CommandsRequest} (hst : Step s t) :
    ∀ x ∈ s.finished ++ s.failed, x ∈ t.finished ++ t.failed := by
  cases hst with
  | complete tag code hrun =>
      intro x hx
      have hx1 : x ∈ (setResult s tag code).finished ++ (setResult s tag code).failed := hx
      have hx2 := finish_fin_mono (s := setResult s tag code) tag x hx1
      unfold notifyEvent notifyOne
      by_cases hready : (((setResult s tag code).finish tag).2).is_ready = true
      · rw [if_pos hready]
        rcases next_fin_eq (((setResult s tag code).finish tag).2) with ⟨hf, hg⟩
        rw [hf, hg]
        exact hx2
      · rw [if_neg hready]
        exact hx2

/-- Transitive monotonicity of `finished ++ failed` along runs. -/
theorem star_fin_mono {s t : CommandsRequest} (h : Relation.ReflTransGen Step s t) :
    ∀ x ∈ s.finished ++ s.failed, x ∈ t.finished ++ t.failed := by
  induction h with
  | refl => exact fun x hx => hx
  | tail _ hst ih => exact fun x hx => step_fin_mono hst x (ih x hx)

/-- Reachability is closed under runs of steps. -/
theorem reachable_star {s t : CommandsRequest} (hs : Reachable s)
    (h : Relation.ReflTransGen Step s t) : Reachable t := by
  induction h with
  | refl => exact hs
  | tail _ hst ih => exact Reachable.step ih hst

/-! ### Miscellaneous helpers for the claims -/

/-- Characterisation of `is_finished` in terms of the two lists. -/
theorem is_finished_iff (s : CommandsRequest) :
    s.is_finished = true ↔ s.running = [] ∧ s.waiting = [] := by
  simp [CommandsRequest.is_finished]

/-- Characterisation of `has_failed` in terms of the failed list. -/
theorem has_failed_iff (s : CommandsRequest) : s.has_failed = true ↔ s.failed ≠ [] := by
  simp [CommandsRequest.has_failed]

/-- Library `find?` returns the head match of a split around the first match. -/
theorem find?_first {tag : String} : ∀ (l1 : List CommandResult) (res : CommandResult)
    (l2 : List CommandResult), res.tag = tag → (∀ x ∈ l1, x.tag ≠ tag) →
    (l1 ++ res :: l2).find? (fun x => x.tag = tag) = some res := by
  intro l1
  induction l1 with
  | nil =>
      intro res l2 hres _
      rw [List.nil_append]
      exact List.find?_cons_of_pos l2 (by simp [hres])
  | cons a t ih =>
      intro res l2 hres hall
      rw [List.cons_append,
        List.find?_cons_of_neg _ (by simp [hall a (List.mem_cons_self a t)])]
      exact ih res l2 hres fun x hx => hall x (List.mem_cons_of_mem a hx)

/-- Library `eraseP` deletes exactly the first match of a split around it. -/
theorem eraseP_first {tag : String} : ∀ (l1 : List CommandResult) (res : CommandResult)
    (l2 : List CommandResult), res.tag = tag → (∀ x ∈ l1, x.tag ≠ tag) →
    (l1 ++ res :: l2).eraseP (fun x => x.tag = tag) = l1 ++ l2 := by
  intro l1
  induction l1 with
  | nil =>
      intro res l2 hres _
      rw [List.nil_append, List.eraseP_cons_of_pos (by simp [hres]), List.nil_append]
  | cons a t ih =>
      intro res l2 hres hall
      rw [List.cons_append,
        List.eraseP_cons_of_neg (by simp [hall a (List.mem_cons_self a t)]),
        ih res l2 hres fun x hx => hall x (List.mem_cons_of_mem a hx), List.cons_append]

/-- Operation `finish` never removes an entry from `failed`. -/
theorem finish_failed_mono {s : CommandsRequest} (tag : String) :
    ∀ x ∈ s.failed, x ∈ ((s.finish tag).2).failed := by
  intro x hx
  cases hrem : removeFirstTag tag s.running with
  | none =>
      rw [finish_not_found (removeFirstTag_none_iff.mp hrem)]
      exact hx
  | some p =>
      obtain ⟨res, rest⟩ := p
      rw [finish_found hrem]
      by_cases hc : res.r = some 0
      · rw [if_pos hc]; exact hx
      · rw [if_neg hc]; exact List.mem_append.mpr (Or.inl hx)

/-- No single operation removes an entry from `failed`. -/
theorem applyOp_failed_mono (s : CommandsRequest) (op : Op) :
    ∀ x ∈ s.failed, x ∈ (applyOp s op).failed := by
  intro x hx
  cases op with
  | doFinish tag => exact finish_failed_mono tag x hx
  | doNext =>
      show x ∈ (s.next).failed
      rw [(next_fin_eq s).2]
      exact hx
  | doComplete tag code =>
      show x ∈ (notifyEvent s tag code).failed
      unfold notifyEvent notifyOne
      have hx1 : x ∈ (setResult s tag code).failed := hx
      have hx2 := finish_failed_mono (s := setResult s tag code) tag x hx1
      by_cases hready : (((setResult s tag code).finish tag).2).is_ready = true
      · rw [if_pos hready, (next_fin_eq (((setResult s tag code).finish tag).2)).2]
        exact hx2
      · rw [if_neg hready]
        exact hx2

/-- No sequence of operations removes an entry from `failed`. -/
theorem applyOps_failed_mono : ∀ (ops : List Op) (s : CommandsRequest),
    ∀ x ∈ s.failed, x ∈ (applyOps s ops).failed := by
  intro ops
  induction ops with
  | nil => exact fun s x hx => hx
  | cons op t ih =>
      intro s x hx
      exact ih (applyOp s op) x (applyOp_failed_mono s op x hx)

/-- A filter of length one splits the list around a unique match. -/
theorem filter_length_one {p : CommandsRequest → Bool} : ∀ {l : List CommandsRequest},
    (l.filter p).length = 1 → ∃ pre x post, l = pre ++ x :: post ∧ p x = true ∧
      (∀ y ∈ pre, p y = false) ∧ (∀ y ∈ post, p y = false) := by
  intro l
  induction l with
  | nil => intro h; simp at h
  | cons a t ih =>
      intro h
      by_cases ha : p a = true
      · rw [List.filter_cons_of_pos ha] at h
        simp only [List.length_cons] at h
        have hnil : t.filter p = [] := List.length_eq_zero.mp (by omega)
        refine ⟨[], a, t, rfl, ha, by simp, ?_⟩
        intro y hy
        have := List.filter_eq_nil_iff.mp hnil y hy
        simpa using this
      · rw [List.filter_cons_of_neg (by simpa using ha)] at h
        obtain ⟨pre, x, post, rfl, hx, hpre, hpost⟩ := ih h
        refine ⟨a :: pre, x, post, rfl, hx, ?_, hpost⟩
        intro y hy
        rcases List.mem_cons.mp hy with rfl | hy2
        · simpa using ha
        · exact hpre y hy2

/-- Updating by a predicate that holds at exactly one position rewrites
just that position. -/
theorem map_update_of_unique {p : CommandsRequest → Bool}
    {f : CommandsRequest → CommandsRequest} {pre post : List CommandsRequest}
    {x : CommandsRequest} (hx : p x = true) (hpre : ∀ y ∈ pre, p y = false)
    (hpost : ∀ y ∈ post, p y = false) :
    (pre ++ x :: post).map (fun r => if p r then f r else r) = pre ++ f x :: post := by
  rw [List.map_append, List.map_cons, if_pos hx]
  congr 1
  · rw [List.map_congr_left fun y hy => if_neg (by simp [hpre y hy]), List.map_id']
  · congr 1
    rw [List.map_congr_left fun y hy => if_neg (by simp [hpost y hy]), List.map_id']

/-! ### The claims -/

/-- C2, counterexample: a coordinator freshly constructed from the plan
`[[x], [y]]` has a command running and a stage waiting, yet calling
`next()` in this state is not a no-op (it dispatches the waiting stage),
contradicting the claim that `advance()` changes nothing whenever
`running` is non-empty. -/
theorem C2_cex :
    (CommandsRequest.init ("a") [["x"], ["y"]]).running ≠ [] ∧
    (CommandsRequest.init ("a") [["x"], ["y"]]).waiting ≠ [] ∧
    (CommandsRequest.init ("a") [["x"], ["y"]]).next ≠ CommandsRequest.init ("a") [["x"], ["y"]] := by
  refine ⟨by decide, by decide, by decide⟩

/-- C2, amended: `advance()` (called `next()` in the code) is a no-op when
`stagesRemaining` is empty — the only precondition the code checks; a
spurious call with stages remaining and commands still running is not a
no-op, because the running-empty precondition is enforced only by the
caller through `isReady()`. -/
theorem C2_next_noop (s : CommandsRequest) (h : s.waiting = []) : s.next = s :=
  next_eq_nil h

/-- C2 witness. -/
theorem C2_next_noop_witness :
    (CommandsRequest.init ("b") [] ).waiting = [] ∧
    (CommandsRequest.init ("b") [] ).next = CommandsRequest.init ("b") [] :=
  ⟨by decide, C2_next_noop (CommandsRequest.init ("b") [] ) (by decide)⟩

/-- C3: constructing a coordinator drops the empty stages, dispatches one
`CommandResult` per command of the first non-empty stage into `running`
(tags `id:0 ..`), sets `waiting` to the remaining non-empty stages, starts
with `finished`/`failed` empty, the dispatch log equal to the running
entries, and when every stage is empty nothing is ever dispatched. -/
theorem C3_create (id : String) (P : List (List Cmd)) :
    (CommandsRequest.init id P).finished = [] ∧
    (CommandsRequest.init id P).failed = [] ∧
    (CommandsRequest.init id P).waiting = (P.filter (fun x => x.length != 0)).tail ∧
    ((CommandsRequest.init id P).running.map fun r => r.command)
      = (P.filter (fun x => x.length != 0)).headD [] ∧
    ((CommandsRequest.init id P).running.map fun r => r.tag)
      = (List.range ((P.filter (fun x => x.length != 0)).headD []).length).map (tagOf id) ∧
    (CommandsRequest.init id P).sent
      = (CommandsRequest.init id P).running.map (fun r => (r.tag, r.command)) ∧
    (P.filter (fun x => x.length != 0) = [] →
      (CommandsRequest.init id P).running = [] ∧ (CommandsRequest.init id P).sent = []) := by
  unfold CommandsRequest.init
  split
  · next heq =>
      rw [heq]
      exact ⟨rfl, rfl, rfl, rfl, rfl, rfl, fun _ => ⟨rfl, rfl⟩⟩
  · next first rest heq =>
      rw [heq]
      refine ⟨rfl, rfl, rfl, runCmds_map_command id 0 0 first, runCmds_map_tag id 0 0 first,
        rfl, ?_⟩
      intro hcontra
      cases hcontra

/-- C3 witness. -/
theorem C3_create_witness :
    ([[], []] : List (List Cmd)).filter (fun x => x.length != 0) = [] ∧
    (CommandsRequest.init ("e") [[], []]).running = [] ∧
    (CommandsRequest.init ("e") [[], []]).sent = [] :=
  ⟨by decide, (C3_create ("e") [[], []]).2.2.2.2.2.2 (by decide)⟩

/-- C5: after any sequence of `finish`, `next` and completion-notification
calls on a freshly constructed coordinator, `is_finished()` is true
exactly when both `running` and `waiting` (`stagesRemaining`) are empty. -/
theorem C5_is_finished (id : String) (P : List (List Cmd)) (ops : List Op) :
    (applyOps (CommandsRequest.init id P) ops).is_finished = true ↔
      (applyOps (CommandsRequest.init id P) ops).running = [] ∧
      (applyOps (CommandsRequest.init id P) ops).waiting = [] :=
  is_finished_iff (applyOps (CommandsRequest.init id P) ops)

/-- C6: `finish(tag)` with a tag not in `running` returns `False` and
leaves the state unchanged; with a tag in `running` it removes the first
matching entry, appends it to `finished` when its exit code is `0` and to
`failed` otherwise, and returns `True`. -/
theorem C6_finish (s : CommandsRequest) (tag : String) :
    (s.is_running tag = false → s.finish tag = (false, s)) ∧
    (s.is_running tag = true →
      ∃ res, s.running.find? (fun x => x.tag = tag) = some res ∧
        s.finish tag = (true, { s with
          running := s.running.eraseP (fun x => x.tag = tag)
          finished := s.finished ++ (if res.r = some 0 then [res] else [])
          failed := s.failed ++ (if res.r = some 0 then [] else [res]) })) := by
  constructor
  · exact fun h => finish_not_found h
  · intro h
    cases hrem : removeFirstTag tag s.running with
    | none =>
        rw [removeFirstTag_none_iff] at hrem
        rw [hrem] at h
        cases h
    | some p =>
        obtain ⟨res, rest⟩ := p
        obtain ⟨l1, l2, hl, hrest, htag, hl1⟩ := removeFirstTag_some hrem
        have he : s.running.eraseP (fun x => x.tag = tag) = rest := by
          rw [hl, hrest]
          exact eraseP_first l1 res l2 htag hl1
        refine ⟨res, ?_, ?_⟩
        · rw [hl]
          exact find?_first l1 res l2 htag hl1
        · rw [finish_found hrem, he]
          by_cases hc : res.r = some 0
          · rw [if_pos hc, if_pos hc, if_pos hc]
            rw [List.append_nil]
          · rw [if_neg hc, if_neg hc, if_neg hc]
            rw [List.append_nil]

/-- C6 witness. -/
theorem C6_finish_witness :
    ((CommandsRequest.init ("a") [["x"]]).is_running ("zz") = false ∧
      (CommandsRequest.init ("a") [["x"]]).finish ("zz")
        = (false, CommandsRequest.init ("a") [["x"]])) ∧
    ((CommandsRequest.init ("a") [["x"]]).is_running ("a:0") = true ∧
      ((CommandsRequest.init ("a") [["x"]]).finish ("a:0")).1 = true) :=
  ⟨⟨by decide, (C6_finish (CommandsRequest.init ("a") [["x"]]) ("zz")).1 (by decide)⟩,
   ⟨by decide, by
      obtain ⟨res, _, heq⟩ :=
        (C6_finish (CommandsRequest.init ("a") [["x"]]) ("a:0")).2 (by decide)
      rw [heq]⟩⟩

/-- C7: `failed` entries are never removed by any operation, so
`hasFailed()` is monotone: once true it stays true for the rest of the
life of the coordinator, whatever later operations do. -/
theorem C7_has_failed (s : CommandsRequest) (ops : List Op) :
    (∀ x ∈ s.failed, x ∈ (applyOps s ops).failed) ∧
    (s.has_failed = true → (applyOps s ops).has_failed = true) := by
  refine ⟨applyOps_failed_mono ops s, ?_⟩
  intro h
  obtain ⟨x, hx⟩ := List.exists_mem_of_ne_nil s.failed ((has_failed_iff s).mp h)
  refine (has_failed_iff _).mpr ?_
  intro hnil
  have := applyOps_failed_mono ops s x hx
  rw [hnil] at this
  cases this

/-- C7 witness. -/
theorem C7_has_failed_witness :
    (⟨("a:0"), ("x"), some 1, 0, 0⟩ : CommandResult)
        ∈ (applyOps (notifyEvent (CommandsRequest.init ("a") [["x"]]) ("a:0") 1)
            [Op.doNext]).failed ∧
    (applyOps (notifyEvent (CommandsRequest.init ("a") [["x"]]) ("a:0") 1)
        [Op.doNext]).has_failed = true :=
  ⟨(C7_has_failed (notifyEvent (CommandsRequest.init ("a") [["x"]]) ("a:0") 1)
      [Op.doNext]).1 (⟨("a:0"), ("x"), some 1, 0, 0⟩ : CommandResult) (by decide),
   (C7_has_failed (notifyEvent (CommandsRequest.init ("a") [["x"]]) ("a:0") 1)
      [Op.doNext]).2 (by decide)⟩

/-- C8: `get_state()` returns `"pending"` whenever the coordinator is not
finished (even with failures already recorded), and once finished returns
`"failed"` iff something failed and `"success"` otherwise; the embedding
is a pure function of the state, so the call mutates nothing. -/
theorem C8_get_state (s : CommandsRequest) :
    (s.is_finished = false → s.get_state = ("pending")) ∧
    (s.is_finished = true →
      s.get_state = (if s.has_failed then ("failed") else ("success"))) := by
  constructor
  · intro h
    unfold CommandsRequest.get_state
    rw [h]
    rfl
  · intro h
    unfold CommandsRequest.get_state
    rw [h]
    rfl

/-- C8 witness. -/
theorem C8_get_state_witness :
    ((CommandsRequest.init ("a") [["x"]]).is_finished = false ∧
      (CommandsRequest.init ("a") [["x"]]).get_state = ("pending")) ∧
    ((CommandsRequest.init ("b") []).is_finished = true ∧
      (CommandsRequest.init ("b") []).get_state = ("success")) :=
  ⟨⟨by decide, (C8_get_state (CommandsRequest.init ("a") [["x"]])).1 (by decide)⟩,
   ⟨by decide, by
      have h := (C8_get_state (CommandsRequest.init ("b") [])).2 (by decide)
      rw [h]
      decide⟩⟩

/-- C1, counterexample: tags are not unique across stages (the index
restarts at 0 with every stage), so a reachable state of the plan
`[[x, y], [z]]` has tag `a:0` simultaneously in `finished` (from the
first stage) and in `running` (a command of the second stage), refuting both
the at-most-one-collection claim and the never-returns-to-running claim
at the tag level. -/
theorem C1_cex :
    Reachable (notifyEvent (notifyEvent
      (CommandsRequest.init ("a") [["x", "y"], ["z"]]) ("a:0") 0) ("a:1") 0) ∧
    ((notifyEvent (notifyEvent
      (CommandsRequest.init ("a") [["x", "y"], ["z"]]) ("a:0") 0) ("a:1") 0).finished.any
        (fun r => r.tag = ("a:0")) = true) ∧
    ((notifyEvent (notifyEvent
      (CommandsRequest.init ("a") [["x", "y"], ["z"]]) ("a:0") 0) ("a:1") 0).running.any
        (fun r => r.tag = ("a:0")) = true) := by
  refine ⟨?_, by decide, by decide⟩
  exact Reachable.step
    (Reachable.step (Reachable.init ("a") [["x", "y"], ["z"]])
      (Step.complete _ ("a:0") 0 (by decide)))
    (Step.complete _ ("a:1") 0 (by decide))

/-- C1, amended: the claim holds at the level of `CommandResult` objects
(ghost serials modelling Python object identity), not tags: in every
reachable state an object in `finished` or `failed` is in no entry of
`running`, and along every further run of notification steps no object
that was moved to `finished`/`failed` ever re-enters `running`.  A tag,
by contrast, can recur, because indices restart at 0 with each stage. -/
theorem C1_object_never_returns (s t : CommandsRequest) (hs : Reachable s)
    (hst : Relation.ReflTransGen Step s t) (r : CommandResult)
    (hr : r ∈ s.finished ∨ r ∈ s.failed) :
    (∀ q ∈ s.running, q.serial ≠ r.serial) ∧ (∀ q ∈ t.running, q.serial ≠ r.serial) := by
  have key : ∀ u, Reachable u → r ∈ u.finished ++ u.failed →
      ∀ q ∈ u.running, q.serial ≠ r.serial := by
    intro u hu hru q hq
    exact (reachable_inv hu).2.2.2.1 q hq r hru
  constructor
  · exact key s hs (List.mem_append.mpr hr)
  · exact key t (reachable_star hs hst) (star_fin_mono hst r (List.mem_append.mpr hr))

/-- C1 witness. -/
theorem C1_object_never_returns_witness :
    ((⟨("w:0"), ("c"), some 0, 0, 0⟩ : CommandResult)
        ∈ (notifyEvent (CommandsRequest.init ("w") [["c"], ["d"]]) ("w:0") 0).finished) ∧
    ((⟨("w:0"), ("d"), none, 1, 1⟩ : CommandResult)
        ∈ (notifyEvent (CommandsRequest.init ("w") [["c"], ["d"]]) ("w:0") 0).running) ∧
    (⟨("w:0"), ("d"), none, 1, 1⟩ : CommandResult).serial
      ≠ (⟨("w:0"), ("c"), some 0, 0, 0⟩ : CommandResult).serial :=
  ⟨by decide, by decide,
    (C1_object_never_returns
      (notifyEvent (CommandsRequest.init ("w") [["c"], ["d"]]) ("w:0") 0)
      (notifyEvent (CommandsRequest.init ("w") [["c"], ["d"]]) ("w:0") 0)
      (Reachable.step (Reachable.init ("w") [["c"], ["d"]])
        (Step.complete _ ("w:0") 0 (by decide)))
      Relation.ReflTransGen.refl
      (⟨("w:0"), ("c"), some 0, 0, 0⟩ : CommandResult)
      (Or.inl (by decide))).2
      (⟨("w:0"), ("d"), none, 1, 1⟩ : CommandResult) (by decide)⟩

/-- C4: in every reachable state all commands in `running` carry the same
ghost stage index (the most recently dispatched stage), so a command of
stage N+1 is never in `running` while a command of stage N is still
unresolved: the next stage is dispatched only once the active stage has
fully moved to `finished`/`failed`. -/
theorem C4_stage_barrier (s : CommandsRequest) (h : Reachable s) :
    ∀ r1 ∈ s.running, ∀ r2 ∈ s.running, r1.stage = r2.stage := by
  intro r1 h1 r2 h2
  have hinv := reachable_inv h
  have e1 := hinv.2.2.2.2.2.2 r1 h1
  have e2 := hinv.2.2.2.2.2.2 r2 h2
  omega

/-- C4 witness. -/
theorem C4_stage_barrier_witness :
    ((⟨("a:0"), ("x"), none, 0, 0⟩ : CommandResult)
        ∈ (CommandsRequest.init ("a") [["x", "y"]]).running ∧
      (⟨("a:1"), ("y"), none, 1, 0⟩ : CommandResult)
        ∈ (CommandsRequest.init ("a") [["x", "y"]]).running) ∧
    (⟨("a:0"), ("x"), none, 0, 0⟩ : CommandResult).stage
      = (⟨("a:1"), ("y"), none, 1, 0⟩ : CommandResult).stage :=
  ⟨⟨by decide, by decide⟩,
    C4_stage_barrier (CommandsRequest.init ("a") [["x", "y"]])
      (Reachable.init ("a") [["x", "y"]])
      (⟨("a:0"), ("x"), none, 0, 0⟩ : CommandResult) (by decide)
      (⟨("a:1"), ("y"), none, 1, 0⟩ : CommandResult) (by decide)⟩

/-- C9: for a command notification whose tag is not the `seq` sentinel,
if the number of registered coordinators whose `running` set holds the
tag is not exactly one the router returns with every coordinator
unchanged; if exactly one matches, that coordinator receives
`finish(tag)` followed by `next()` iff it `is_ready()`, and all other
coordinators are untouched. -/
theorem C9_notify (M : ModuleState) (tag : String) (hseq : tag ≠ ("seq")) :
    ((M.requests.filter fun r => r.is_running tag).length ≠ 1 → notifyCommand M tag = M) ∧
    ((M.requests.filter fun r => r.is_running tag).length = 1 →
      ∃ pre x post, M.requests = pre ++ x :: post ∧ x.is_running tag = true ∧
        (∀ y ∈ pre, y.is_running tag = false) ∧ (∀ y ∈ post, y.is_running tag = false) ∧
        (notifyCommand M tag).requests = pre ++
          (if ((x.finish tag).2).is_ready then ((x.finish tag).2).next
           else (x.finish tag).2) :: post) := by
  constructor
  · intro h
    unfold notifyCommand
    rw [if_neg hseq, if_pos (by simpa using h)]
  · intro h
    obtain ⟨pre, x, post, hdec, hx, hpre, hpost⟩ := filter_length_one h
    refine ⟨pre, x, post, hdec, hx, hpre, hpost, ?_⟩
    unfold notifyCommand
    rw [if_neg hseq, if_neg (by simp [h])]
    dsimp only
    rw [hdec, map_update_of_unique hx hpre hpost]
    rfl

/-- C9 witness. -/
theorem C9_notify_witness :
    notifyCommand ⟨[CommandsRequest.init ("a") [["x"]]]⟩ ("zz")
      = ⟨[CommandsRequest.init ("a") [["x"]]]⟩ ∧
    (notifyCommand ⟨[CommandsRequest.init ("a") [["x"]]]⟩ ("a:0")).requests ≠ [] :=
  ⟨(C9_notify ⟨[CommandsRequest.init ("a") [["x"]]]⟩ ("zz") (by decide)).1 (by decide),
   by
    obtain ⟨pre, x, post, _, _, _, _, hreq⟩ :=
      (C9_notify ⟨[CommandsRequest.init ("a") [["x"]]]⟩ ("a:0") (by decide)).2 (by decide)
    rw [hreq]
    simp⟩

/-- C10: in every reachable coordinator state the tags of the entries of
`running` are pairwise distinct (the commands of one stage, indexed 0..n-1),
which is what makes the router lookup and the finish first-match
removal well defined within a coordinator. -/
theorem C10_running_tags_distinct (s : CommandsRequest) (h : Reachable s) :
    List.Pairwise (fun a b => a.tag ≠ b.tag) s.running :=
  List.pairwise_map.mp (reachable_inv h).1

/-- C10 witness. -/
theorem C10_running_tags_distinct_witness :
    List.Pairwise (fun a b => a.tag ≠ b.tag)
      (CommandsRequest.init ("b") [["u", "v"]]).running :=
  C10_running_tags_distinct (CommandsRequest.init ("b") [["u", "v"]])
    (Reachable.init ("b") [["u", "v"]])
